import Mathlib

/-!
# Verification of the BTC Simple RSI Strategy scripts

Shallow embedding, over `ℚ`, of the strategy loops and summary statistics of
`rsi_strategy.py`, `plot_simple_rsi.py` and `fixed_size_analysis.py`, together
with a spec-modelled oscillator (the RSI itself is computed by the external
`ta` library, whose code is not part of this repository).

Conventions:
- Python floats become rationals (`ℚ`); float `NaN`/`inf` sentinels that the
  statistics code can produce become the explicit `FVal` type.
- Pandas `NaN` oscillator entries become `Option ℚ` with `none`; a comparison
  against `none` is false, as a comparison against `NaN` is in Python.
- Division by zero on `ℚ` yields `0` (Lean convention); it is only ever
  relevant on paths the theorems guard with hypotheses, except in `FVal`
  arithmetic where the float behaviour is modelled explicitly.
-/

namespace RSIStrategy

/-! ## Oscillator engine

Modelled from the spec: the oscillator is produced by `ta.momentum.RSIIndicator`,
an external library whose implementation is not under `src/`; the definitions
below follow spec §4.1 — close-to-close deltas, first average a simple mean
over the first `W` deltas, subsequent averages exponentially smoothed with
factor `1/W` (Wilder smoothing), an output of length `N` whose first `W`
entries are undefined, and the degenerate rule that a zero trailing average
loss yields the value 100. -/

/-- Positive part of a delta: the gain contributed by one close-to-close move. -/
def gainOf (d : ℚ) : ℚ := max d 0

/-- Negative part of a delta: the loss contributed by one close-to-close move. -/
def lossOf (d : ℚ) : ℚ := max (-d) 0

/-- Close-to-close differences: `deltas [c₀, c₁, …]` is `[c₁ - c₀, c₂ - c₁, …]`. -/
def deltas : List ℚ → List ℚ
  | a :: b :: rest => (b - a) :: deltas (b :: rest)
  | _ => []

/-- Wilder-smoothed averages of `xs` with window `W`: the seed is the simple
mean of the first `W` values, and each subsequent average is
`(previous * (W-1) + x) / W`. Entry `j` is the average aligned with source
index `W + j`. -/
def wilderAvgs (W : ℕ) (xs : List ℚ) : List ℚ :=
  List.scanl (fun a x => (a * ((W : ℚ) - 1) + x) / (W : ℚ))
    ((xs.take W).sum / (W : ℚ)) (xs.drop W)

/-- The oscillator value from a smoothed average gain and average loss; the
degenerate zero-average-loss case is defined as 100. -/
def rsiVal (g l : ℚ) : ℚ := if l = 0 then 100 else 100 - 100 / (1 + g / l)

/-- Modelled from the spec: the full oscillator series for a close-price list,
window `W`. The first `W` entries are undefined (`none`); entry `i ≥ W` is the
oscillator value built from the Wilder-smoothed average gain and loss over the
deltas up to index `i`. -/
def rsiSeries (W : ℕ) (closes : List ℚ) : List (Option ℚ) :=
  let ds := deltas closes
  List.replicate W none ++
    List.zipWith (fun g l => some (rsiVal g l))
      (wilderAvgs W (ds.map gainOf)) (wilderAvgs W (ds.map lossOf))

/-! ## Float sentinel values

The summary statistics of `fixed_size_analysis.py` are numpy/pandas float
expressions: the mean of an empty series is `NaN`, `NaN` propagates through
arithmetic, and a nonzero value divided by zero is a signed infinity (numpy
emits a warning, not an exception). `FVal` models exactly those outcomes. -/

inductive FVal : Type
  | num : ℚ → FVal
  | nan : FVal
  | pinf : FVal
  | ninf : FVal
  deriving DecidableEq, Repr

/-- Pandas `Series.mean`: `NaN` on an empty series, the arithmetic mean
otherwise. -/
def fmean (xs : List ℚ) : FVal :=
  match xs with
  | [] => FVal.nan
  | _ => FVal.num (xs.sum / (xs.length : ℚ))

/-- Float absolute value: `abs(NaN) = NaN`, `abs(±inf) = +inf`. -/
def fabs : FVal → FVal
  | FVal.num q => FVal.num |q|
  | FVal.nan => FVal.nan
  | FVal.pinf => FVal.pinf
  | FVal.ninf => FVal.pinf

/-- Float division following numpy semantics: `NaN` propagates, a nonzero
numerator over zero is a signed infinity, `0/0` is `NaN`. -/
def fdiv : FVal → FVal → FVal
  | FVal.num a, FVal.num b =>
      if b = 0 then
        if 0 < a then FVal.pinf else if a < 0 then FVal.ninf else FVal.nan
      else FVal.num (a / b)
  | FVal.num _, FVal.pinf => FVal.num 0
  | FVal.num _, FVal.ninf => FVal.num 0
  | FVal.pinf, FVal.num b => if 0 ≤ b then FVal.pinf else FVal.ninf
  | FVal.ninf, FVal.num b => if 0 ≤ b then FVal.ninf else FVal.pinf
  | FVal.pinf, FVal.pinf => FVal.nan
  | FVal.pinf, FVal.ninf => FVal.nan
  | FVal.ninf, FVal.pinf => FVal.nan
  | FVal.ninf, FVal.ninf => FVal.nan
  | FVal.nan, _ => FVal.nan
  | _, FVal.nan => FVal.nan

/-- Float subtraction, only needed for `NaN` propagation in the Kelly value. -/
def fsub : FVal → FVal → FVal
  | FVal.num a, FVal.num b => FVal.num (a - b)
  | FVal.pinf, FVal.num _ => FVal.pinf
  | FVal.ninf, FVal.num _ => FVal.ninf
  | FVal.num _, FVal.pinf => FVal.ninf
  | FVal.num _, FVal.ninf => FVal.pinf
  | FVal.pinf, FVal.ninf => FVal.pinf
  | FVal.ninf, FVal.pinf => FVal.ninf
  | FVal.pinf, FVal.pinf => FVal.nan
  | FVal.ninf, FVal.ninf => FVal.nan
  | FVal.nan, _ => FVal.nan
  | _, FVal.nan => FVal.nan

/-! ## Summary statistics of `fixed_size_analysis.py`

The ledger rows built by that script carry a `type` (`BUY`/`SELL`), a `pnl`
and a `return` column (the metrics read nothing else; the `pnl`/`return`
entries of `BUY` rows are `NaN` placeholders the `SELL` filter removes, so
their stored rationals are irrelevant). -/

inductive FSide : Type
  | buy : FSide
  | sell : FSide
  deriving DecidableEq, Repr

structure FTrade : Type where
  side : FSide
  pnl : ℚ
  ret : ℚ
  deriving DecidableEq, Repr

/-- `trades_df[trades_df['type'] == 'SELL']`. -/
def sell_trades (ts : List FTrade) : List FTrade :=
  ts.filter fun t => t.side = FSide.sell

/-- `wins = sell_trades[sell_trades['pnl'] > 0]`. -/
def wins (ts : List FTrade) : List FTrade :=
  (sell_trades ts).filter fun t => 0 < t.pnl

/-- `losses = sell_trades[sell_trades['pnl'] <= 0]`. -/
def losses (ts : List FTrade) : List FTrade :=
  (sell_trades ts).filter fun t => t.pnl ≤ 0

/-- `win_rate = len(wins) / len(sell_trades)`. -/
def win_rate (ts : List FTrade) : ℚ :=
  ((wins ts).length : ℚ) / ((sell_trades ts).length : ℚ)

/-- `avg_win = wins['return'].mean() / 100`. -/
def avg_win (ts : List FTrade) : FVal :=
  fdiv (fmean ((wins ts).map FTrade.ret)) (FVal.num 100)

/-- `avg_loss = abs(losses['return'].mean()) / 100`. -/
def avg_loss (ts : List FTrade) : FVal :=
  fdiv (fabs (fmean ((losses ts).map FTrade.ret))) (FVal.num 100)

/-- `win_loss_ratio = avg_win / avg_loss`. -/
def win_loss_ratio (ts : List FTrade) : FVal :=
  fdiv (avg_win ts) (avg_loss ts)

/-- `kelly = win_rate - ((1 - win_rate) / win_loss_ratio)`. -/
def kelly (ts : List FTrade) : FVal :=
  fsub (FVal.num (win_rate ts))
    (fdiv (FVal.num (1 - win_rate ts)) (win_loss_ratio ts))

/-- `profit_factor = abs(wins['pnl'].sum() / losses['pnl'].sum())
if len(losses) > 0 else float('inf')`. -/
def profit_factor (ts : List FTrade) : FVal :=
  if 0 < (losses ts).length then
    fabs (fdiv (FVal.num ((wins ts).map FTrade.pnl).sum)
      (FVal.num ((losses ts).map FTrade.pnl).sum))
  else FVal.pinf

/-! ## Backtest engine of `rsi_strategy.py`

The strategy loop (lines 76–143) walks bars `(date index, close, RSI)`,
maintaining `capital`, `position`, `current_shares`, the `trades` list, the
`portfolio_values`/`dates` curve (seeded with the initial capital at the first
bar's date before the loop), `entry_portfolio_value` and `total_pnl`. The
script constants become a `Config` so the theorems can quantify over them;
`defaultConfig` is the script's parameter block. -/

structure Config : Type where
  kelly_fraction : ℚ
  trading_fee_pct : ℚ
  slippage_pct : ℚ
  initial_capital : ℚ
  rsi_overbought : ℚ
  deriving DecidableEq, Repr

/-- The constants of `rsi_strategy.py`: `KELLY_FRACTION = 0.3244`,
`TRADING_FEE_PCT = 0.001`, `SLIPPAGE_PCT = 0.001`,
`INITIAL_CAPITAL = 100000`, `RSI_OVERBOUGHT = 70`. -/
def defaultConfig : Config :=
  { kelly_fraction := 3244 / 10000
    trading_fee_pct := 1 / 1000
    slippage_pct := 1 / 1000
    initial_capital := 100000
    rsi_overbought := 70 }

/-- A ledger record of `rsi_strategy.py`: the `BUY` and `SELL` dicts appended
by the entry and exit branches, with their respective keys. -/
inductive KTrade : Type
  | buy (date : ℕ) (price effective_price shares trade_size fees slippage
      portfolio_value : ℚ)
  | sell (date : ℕ) (price effective_price shares trade_size trade_pnl
      strategy_pnl fees slippage portfolio_value return_pct : ℚ)
  deriving DecidableEq, Repr

def KTrade.isBuy : KTrade → Bool
  | KTrade.buy .. => true
  | KTrade.sell .. => false

def KTrade.tradeSizeOf : KTrade → ℚ
  | KTrade.buy _ _ _ _ ts _ _ _ => ts
  | KTrade.sell _ _ _ _ ts _ _ _ _ _ _ => ts

def KTrade.tradePnlOf : KTrade → ℚ
  | KTrade.buy .. => 0
  | KTrade.sell _ _ _ _ _ pnl _ _ _ _ _ => pnl

def KTrade.strategyPnlOf : KTrade → ℚ
  | KTrade.buy .. => 0
  | KTrade.sell _ _ _ _ _ _ spnl _ _ _ _ => spnl

def KTrade.returnPctOf : KTrade → ℚ
  | KTrade.buy .. => 0
  | KTrade.sell _ _ _ _ _ _ _ _ _ _ r => r

def KTrade.sharesOf : KTrade → ℚ
  | KTrade.buy _ _ _ sh _ _ _ _ => sh
  | KTrade.sell _ _ _ sh _ _ _ _ _ _ _ => sh

def KTrade.effectivePriceOf : KTrade → ℚ
  | KTrade.buy _ _ ep _ _ _ _ _ => ep
  | KTrade.sell _ _ ep _ _ _ _ _ _ _ _ => ep

/-- Whether the most recent ledger record is a `BUY` (false on an empty
ledger). -/
def lastIsBuyB (ts : List KTrade) : Bool :=
  match ts.getLast? with
  | some t => t.isBuy
  | none => false

structure KState : Type where
  capital : ℚ
  position : Bool
  current_shares : ℚ
  trades : List KTrade
  portfolio_values : List ℚ
  dates : List ℕ
  entry_portfolio_value : ℚ
  total_pnl : ℚ
  deriving DecidableEq, Repr

/-- Mark-to-market value as computed at line 141:
`capital + (current_shares * current_price if position else 0)`. -/
def markValue (s : KState) (price : ℚ) : ℚ :=
  s.capital + (if s.position then s.current_shares * price else 0)

/-- The ledger/flag invariant of the strategy loop: the ledger length has the
parity of the position flag, and while a position is open the most recent
record is its `BUY`. -/
def ledgerOK (s : KState) : Prop :=
  s.trades.length % 2 = (if s.position then 1 else 0) ∧
  (s.position = true → lastIsBuyB s.trades = true)

/-- The entry/exit branches of the loop body (lines 88–138). `bar` is
`(date index, close price, RSI value or undefined)`; a comparison against an
undefined RSI is false, as a comparison against `NaN` is in Python. Note that
`trade_size` is the value recomputed from the current bar's portfolio value at
line 86, also inside the exit branch. -/
def kellyTransition (cfg : Config) (s : KState) (bar : ℕ × ℚ × Option ℚ) :
    KState :=
  let date := bar.1
  let price := bar.2.1
  let current_portfolio_value :=
    s.capital + (if s.position then s.current_shares * price else 0)
  let trade_size := current_portfolio_value * cfg.kelly_fraction
  match bar.2.2 with
  | none => s
  | some rsi =>
    if s.position = false ∧ cfg.rsi_overbought < rsi then
      let effective_entry_price :=
        price * (1 + cfg.trading_fee_pct + cfg.slippage_pct)
      let shares := trade_size / effective_entry_price
      { s with
        position := true
        current_shares := shares
        capital := s.capital - trade_size
        entry_portfolio_value := current_portfolio_value
        trades := s.trades ++
          [KTrade.buy date price effective_entry_price shares trade_size
            (trade_size * cfg.trading_fee_pct) (trade_size * cfg.slippage_pct)
            current_portfolio_value] }
    else if s.position = true ∧ rsi < cfg.rsi_overbought then
      let effective_exit_price :=
        price * (1 - cfg.trading_fee_pct - cfg.slippage_pct)
      let exit_value := s.current_shares * effective_exit_price
      let trade_pnl := exit_value - trade_size
      let new_capital := s.capital + exit_value
      let strategy_pnl := new_capital - s.entry_portfolio_value
      { s with
        position := false
        current_shares := 0
        capital := new_capital
        total_pnl := s.total_pnl + strategy_pnl
        trades := s.trades ++
          [KTrade.sell date price effective_exit_price s.current_shares
            trade_size trade_pnl strategy_pnl
            (exit_value * cfg.trading_fee_pct) (exit_value * cfg.slippage_pct)
            new_capital (trade_pnl / trade_size * 100)] }
    else s

/-- One full loop iteration: the branches, then the unconditional
`portfolio_values.append` / `dates.append` of lines 140–143. -/
def kellyStep (cfg : Config) (s : KState) (bar : ℕ × ℚ × Option ℚ) : KState :=
  let s1 := kellyTransition cfg s bar
  { s1 with
    portfolio_values := s1.portfolio_values ++ [markValue s1 bar.2.1]
    dates := s1.dates ++ [bar.1] }

/-- The loop over the remaining bars. -/
def runBars (cfg : Config) : KState → List (ℕ × ℚ × Option ℚ) → KState
  | s, [] => s
  | s, b :: bs => runBars cfg (kellyStep cfg s b) bs

/-- The state before the loop (lines 67–73): full capital, flat, empty ledger,
equity curve seeded with `[capital]` at `df.index[0]`. The dead Python locals
`entry_portfolio_value` start at zero (they are only read after being set). -/
def initState (cfg : Config) (firstDate : ℕ) : KState :=
  { capital := cfg.initial_capital
    position := false
    current_shares := 0
    trades := []
    portfolio_values := [cfg.initial_capital]
    dates := [firstDate]
    entry_portfolio_value := 0
    total_pnl := 0 }

/-- The bars the loop actually visits: `range(RSI_WINDOW, len(df))` paired
with the close and the (spec-modelled) RSI at each index. -/
def strategyBars (W : ℕ) (closes : List ℚ) : List (ℕ × ℚ × Option ℚ) :=
  let rsis := rsiSeries W closes
  ((List.range closes.length).map
    fun i => (i, closes.getD i 0, rsis.getD i none)).drop W

/-- The whole of `rsi_strategy.py`: RSI with window 5, then the strategy loop
with the script's constants. -/
def runStrategy (closes : List ℚ) : KState :=
  runBars defaultConfig (initState defaultConfig 0) (strategyBars 5 closes)

/-- The per-bar equity values the loop appends: entry `k` is the mark-to-market
value of the post-transition state at bar `k`'s close price. -/
def equityList (cfg : Config) : KState → List (ℕ × ℚ × Option ℚ) → List ℚ
  | _, [] => []
  | s, b :: bs =>
    markValue (kellyTransition cfg s b) b.2.1 ::
      equityList cfg (kellyStep cfg s b) bs

/-- A concrete two-bar run with the script's constants: entry fires at price
100 (RSI 80), exit at price 110 (RSI 60). -/
def pnlProbeRun : KState :=
  runBars defaultConfig (initState defaultConfig 0)
    [(0, 100, some 80), (1, 110, some 60)]

/-- The `BUY` record of `pnlProbeRun`. -/
def pnlProbeBuy : KTrade := pnlProbeRun.trades.getD 0 (KTrade.buy 0 0 0 0 0 0 0 0)

/-- The `SELL` record of `pnlProbeRun`. -/
def pnlProbeSell : KTrade := pnlProbeRun.trades.getD 1 (KTrade.buy 0 0 0 0 0 0 0 0)

/-! ## Backtest engine of `plot_simple_rsi.py`

The frictionless variant (lines 33–89): fixed `INITIAL_TRADE_SIZE` on the
first processed bar (`len(portfolio_values) <= 1`), then 20% of the current
portfolio value; no fees or slippage; the threshold 70 is a literal. -/

structure SimpleConfig : Type where
  initial_trade_size : ℚ
  position_size_pct : ℚ
  initial_capital : ℚ
  deriving DecidableEq, Repr

/-- The constants of `plot_simple_rsi.py`: `INITIAL_TRADE_SIZE = 20000`,
`POSITION_SIZE_PCT = 0.20`, `capital = 100000`. -/
def defaultSimpleConfig : SimpleConfig :=
  { initial_trade_size := 20000
    position_size_pct := 1 / 5
    initial_capital := 100000 }

/-- A ledger record of `plot_simple_rsi.py`. -/
inductive PTrade : Type
  | buy (date : ℕ) (price shares trade_size : ℚ)
  | sell (date : ℕ) (price shares trade_size pnl return_pct : ℚ)
  deriving DecidableEq, Repr

structure PState : Type where
  capital : ℚ
  position : Bool
  current_shares : ℚ
  trades : List PTrade
  portfolio_values : List ℚ
  dates : List ℕ
  entry_price : ℚ
  entry_date : ℕ
  deriving DecidableEq, Repr

/-- The branches of the simple loop body (lines 42–80); `trade_size` is again
the value recomputed from the current bar (lines 43–46), also in the exit
branch. -/
def simpleTransition (cfg : SimpleConfig) (s : PState)
    (bar : ℕ × ℚ × Option ℚ) : PState :=
  let date := bar.1
  let price := bar.2.1
  let current_portfolio_value :=
    s.capital + (if s.position then s.current_shares * price else 0)
  let trade_size :=
    if s.portfolio_values.length ≤ 1 then cfg.initial_trade_size
    else current_portfolio_value * cfg.position_size_pct
  match bar.2.2 with
  | none => s
  | some rsi =>
    if s.position = false ∧ 70 < rsi then
      let shares := trade_size / price
      { s with
        position := true
        entry_price := price
        entry_date := date
        current_shares := shares
        capital := s.capital - trade_size
        trades := s.trades ++ [PTrade.buy date price shares trade_size] }
    else if s.position = true ∧ rsi < 70 then
      let exit_value := s.current_shares * price
      let pnl := exit_value - trade_size
      { s with
        position := false
        current_shares := 0
        capital := s.capital + exit_value
        trades := s.trades ++
          [PTrade.sell date price s.current_shares trade_size pnl
            (pnl / trade_size * 100)] }
    else s

/-- Mark-to-market value as computed at lines 83–86:
`capital + current_shares * price` when in a position, else `capital`. -/
def simpleMark (s : PState) (price : ℚ) : ℚ :=
  if s.position then s.capital + s.current_shares * price else s.capital

/-- One full iteration of the simple loop: branches, then the appends of
lines 88–89. -/
def simpleStep (cfg : SimpleConfig) (s : PState) (bar : ℕ × ℚ × Option ℚ) :
    PState :=
  let s1 := simpleTransition cfg s bar
  { s1 with
    portfolio_values := s1.portfolio_values ++ [simpleMark s1 bar.2.1]
    dates := s1.dates ++ [bar.1] }

def runSimpleBars (cfg : SimpleConfig) :
    PState → List (ℕ × ℚ × Option ℚ) → PState
  | s, [] => s
  | s, b :: bs => runSimpleBars cfg (simpleStep cfg s b) bs

/-- The state before the simple loop (lines 25–30). -/
def initSimple (cfg : SimpleConfig) (firstDate : ℕ) : PState :=
  { capital := cfg.initial_capital
    position := false
    current_shares := 0
    trades := []
    portfolio_values := [cfg.initial_capital]
    dates := [firstDate]
    entry_price := 0
    entry_date := 0 }

/-- The solvency invariant of the simple loop: non-negative cash and shares,
a non-empty equity curve, and — while the curve still holds only its seed —
untouched initial capital (the branch picking `INITIAL_TRADE_SIZE` can then
only fire against the full initial capital). -/
def simpleInv (cfg : SimpleConfig) (s : PState) : Prop :=
  0 ≤ s.capital ∧ 0 ≤ s.current_shares ∧ 1 ≤ s.portfolio_values.length ∧
    (s.portfolio_values.length ≤ 1 → s.capital = cfg.initial_capital)

/-! ## Oscillator lemmas -/

theorem length_deltas (l : List ℚ) : (deltas l).length = l.length - 1 := by
  induction l with
  | nil => rfl
  | cons a t ih =>
    cases t with
    | nil => rfl
    | cons b r => simpa [deltas] using ih

theorem length_wilderAvgs (W : ℕ) (xs : List ℚ) :
    (wilderAvgs W xs).length = xs.length - W + 1 := by
  simp [wilderAvgs, List.length_scanl]

theorem length_rsiSeries (W : ℕ) (closes : List ℚ) (h : W < closes.length) :
    (rsiSeries W closes).length = closes.length := by
  simp only [rsiSeries, List.length_append, List.length_replicate,
    List.length_zipWith, List.length_map, length_wilderAvgs, length_deltas]
  omega

theorem scanl_nonneg {f : ℚ → ℚ → ℚ}
    (hf : ∀ a x, 0 ≤ a → 0 ≤ x → 0 ≤ f a x) :
    ∀ (xs : List ℚ) (a : ℚ), 0 ≤ a → (∀ x ∈ xs, 0 ≤ x) →
      ∀ y ∈ List.scanl f a xs, 0 ≤ y := by
  intro xs
  induction xs with
  | nil =>
    intro a ha _ y hy
    simp only [List.scanl, List.not_mem_nil, List.mem_singleton] at hy
    subst hy
    exact ha
  | cons x t ih =>
    intro a ha hx y hy
    simp only [List.scanl, List.mem_cons] at hy
    rcases hy with rfl | hy
    · exact ha
    · exact ih (f a x) (hf a x ha (hx x (List.mem_cons_self x t)))
        (fun z hz => hx z (List.mem_cons_of_mem _ hz)) y hy

theorem sum_nonneg_of_mem {xs : List ℚ} (h : ∀ x ∈ xs, 0 ≤ x) : 0 ≤ xs.sum := by
  induction xs with
  | nil => simp
  | cons a t ih =>
    simp only [List.sum_cons]
    exact add_nonneg (h a (List.mem_cons_self a t))
      (ih fun x hx => h x (List.mem_cons_of_mem _ hx))

theorem wilderAvgs_nonneg (W : ℕ) {xs : List ℚ} (hxs : ∀ x ∈ xs, 0 ≤ x) :
    ∀ y ∈ wilderAvgs W xs, 0 ≤ y := by
  have hW : (0 : ℚ) ≤ (W : ℚ) := by positivity
  refine scanl_nonneg (fun a x ha hx => ?_) (xs.drop W) _ ?_ ?_
  · rcases Nat.eq_zero_or_pos W with h0 | hpos
    · simp [h0]
    · have h1 : (0 : ℚ) ≤ (W : ℚ) - 1 := by
        have : (1 : ℚ) ≤ (W : ℚ) := by exact_mod_cast hpos
        linarith
      exact div_nonneg (add_nonneg (mul_nonneg ha h1) hx) hW
  · exact div_nonneg (sum_nonneg_of_mem fun x hx => hxs x (xs.take_subset W hx)) hW
  · exact fun x hx => hxs x (xs.drop_subset W hx)

theorem rsiVal_mem_Icc {g l : ℚ} (hg : 0 ≤ g) (hl : 0 ≤ l) :
    0 ≤ rsiVal g l ∧ rsiVal g l ≤ 100 := by
  unfold rsiVal
  split
  · norm_num
  · rename_i hne
    have hlpos : 0 < l := lt_of_le_of_ne hl (Ne.symm hne)
    have hq : 0 ≤ g / l := div_nonneg hg hlpos.le
    have h1 : (1 : ℚ) ≤ 1 + g / l := by linarith
    have hpos : 0 < 1 + g / l := by linarith
    constructor
    · have : 100 / (1 + g / l) ≤ 100 / 1 := by
        exact div_le_div_of_nonneg_left (by norm_num) (by norm_num) h1
      simp at this
      linarith
    · have : 0 < 100 / (1 + g / l) := by positivity
      linarith

theorem mem_zipWith {α β γ : Type} {f : α → β → γ} :
    ∀ {as : List α} {bs : List β} {x : γ}, x ∈ List.zipWith f as bs →
      ∃ a ∈ as, ∃ b ∈ bs, x = f a b := by
  intro as
  induction as with
  | nil => intro bs x hx; simp [List.zipWith] at hx
  | cons a t ih =>
    intro bs x hx
    cases bs with
    | nil => simp [List.zipWith] at hx
    | cons b r =>
      simp only [List.zipWith, List.mem_cons] at hx
      rcases hx with rfl | hx
      · exact ⟨a, List.mem_cons_self a t, b, List.mem_cons_self b r, rfl⟩
      · obtain ⟨a', ha', b', hb', rfl⟩ := ih hx
        exact ⟨a', List.mem_cons_of_mem _ ha', b', List.mem_cons_of_mem _ hb', rfl⟩

theorem rsiSeries_take (W : ℕ) (closes : List ℚ) :
    (rsiSeries W closes).take W = List.replicate W none := by
  have h : (List.replicate W (none : Option ℚ)).length = W := by simp
  simp [rsiSeries, List.take_left']

theorem rsiSeries_drop (W : ℕ) (closes : List ℚ) :
    (rsiSeries W closes).drop W =
      List.zipWith (fun g l => some (rsiVal g l))
        (wilderAvgs W ((deltas closes).map gainOf))
        (wilderAvgs W ((deltas closes).map lossOf)) := by
  have h : (List.replicate W (none : Option ℚ)).length = W := by simp
  simp [rsiSeries, List.drop_left']

theorem rsiSeries_drop_bounded (W : ℕ) (closes : List ℚ) :
    ∀ o ∈ (rsiSeries W closes).drop W, ∃ v, o = some v ∧ 0 ≤ v ∧ v ≤ 100 := by
  intro o ho
  rw [rsiSeries_drop] at ho
  obtain ⟨g, hg, l, hl, rfl⟩ := mem_zipWith ho
  have hg0 : 0 ≤ g :=
    wilderAvgs_nonneg W (fun x hx => by
      obtain ⟨d, _, rfl⟩ := List.mem_map.mp hx
      exact le_max_right d 0) g hg
  have hl0 : 0 ≤ l :=
    wilderAvgs_nonneg W (fun x hx => by
      obtain ⟨d, _, rfl⟩ := List.mem_map.mp hx
      exact le_max_right (-d) 0) l hl
  exact ⟨rsiVal g l, rfl, rsiVal_mem_Icc hg0 hl0⟩

theorem wilderAvgs_eq_zero (W : ℕ) {xs : List ℚ} (h : ∀ x ∈ xs, x = 0) :
    ∀ y ∈ wilderAvgs W xs, y = 0 := by
  have hseed : ((xs.take W).sum / (W : ℚ)) = 0 := by
    have hz : (xs.take W).sum = 0 :=
      List.sum_eq_zero fun x hx => h x (xs.take_subset W hx)
    simp [hz]
  have hdrop : ∀ x ∈ xs.drop W, x = 0 := fun x hx => h x (xs.drop_subset W hx)
  unfold wilderAvgs
  rw [hseed]
  revert hdrop
  generalize xs.drop W = ys
  induction ys with
  | nil =>
    intro _ y hy
    simp only [List.scanl, List.not_mem_nil, List.mem_singleton] at hy
    exact hy
  | cons x t ih =>
    intro hz y hy
    simp only [List.scanl, List.mem_cons] at hy
    rcases hy with rfl | hy
    · rfl
    · have hx0 : x = 0 := hz x (List.mem_cons_self x t)
      have hstep : ((0 : ℚ) * ((W : ℚ) - 1) + x) / (W : ℚ) = 0 := by
        rw [hx0]; simp
      rw [hstep] at hy
      exact ih (fun z hzz => hz z (List.mem_cons_of_mem _ hzz)) y hy

theorem deltas_nonneg_of_chain :
    ∀ (l : List ℚ), List.Chain' (· ≤ ·) l → ∀ d ∈ deltas l, 0 ≤ d := by
  intro l
  induction l with
  | nil => intro _ d hd; simp [deltas] at hd
  | cons a t ih =>
    intro hch d hd
    cases t with
    | nil => simp [deltas] at hd
    | cons b r =>
      rw [List.chain'_cons] at hch
      simp only [deltas, List.mem_cons] at hd
      rcases hd with rfl | hd
      · linarith [hch.1]
      · exact ih hch.2 d hd

/-- A flat run of prices produces only zero deltas. -/
theorem deltas_replicate (n : ℕ) (c : ℚ) :
    ∀ d ∈ deltas (List.replicate n c), d = 0 := by
  induction n with
  | zero => intro d hd; simp [List.replicate, deltas] at hd
  | succ m ih =>
    intro d hd
    cases m with
    | zero => simp [List.replicate, deltas] at hd
    | succ k =>
      simp only [List.replicate, deltas, List.mem_cons] at hd ih ⊢
      rcases hd with rfl | hd
      · ring
      · exact ih d hd

/-- Any close series whose deltas are all non-negative has every defined
oscillator entry equal to 100: the trailing average loss is zero at every
index. -/
theorem rsiSeries_drop_of_nonneg_deltas (W : ℕ) (closes : List ℚ)
    (h : ∀ d ∈ deltas closes, 0 ≤ d) :
    ∀ o ∈ (rsiSeries W closes).drop W, o = some 100 := by
  intro o ho
  rw [rsiSeries_drop] at ho
  obtain ⟨g, _, l, hl, rfl⟩ := mem_zipWith ho
  have hl0 : l = 0 := by
    refine wilderAvgs_eq_zero W ?_ l hl
    intro x hx
    obtain ⟨d, hd, rfl⟩ := List.mem_map.mp hx
    have hd0 : 0 ≤ d := h d hd
    simp [lossOf]
    linarith
  rw [hl0]
  simp [rsiVal]

theorem getElem?_zipWith_of_some {α β γ : Type} (f : α → β → γ) :
    ∀ (as : List α) (bs : List β) (j : ℕ) (a : α) (b : β),
      as[j]? = some a → bs[j]? = some b →
      (List.zipWith f as bs)[j]? = some (f a b) := by
  intro as
  induction as with
  | nil => intro bs j a b ha _; simp at ha
  | cons x t ih =>
    intro bs j a b ha hb
    cases bs with
    | nil => simp at hb
    | cons y u =>
      cases j with
      | zero =>
        simp only [List.getElem?_cons_zero, Option.some.injEq] at ha hb
        simp [List.zipWith, ha, hb]
      | succ k =>
        simp only [List.getElem?_cons_succ] at ha hb
        simpa [List.zipWith] using ih u k a b ha hb

/-- The oscillator entry at absolute index `W + j` is built from the smoothed
average gain and loss at relative index `j`. -/
theorem rsiSeries_getElem? (W : ℕ) (closes : List ℚ) (j : ℕ) (g l : ℚ)
    (hg : (wilderAvgs W ((deltas closes).map gainOf))[j]? = some g)
    (hl : (wilderAvgs W ((deltas closes).map lossOf))[j]? = some l) :
    (rsiSeries W closes)[W + j]? = some (some (rsiVal g l)) := by
  unfold rsiSeries
  rw [List.getElem?_append_right (by simp)]
  simp only [List.length_replicate, Nat.add_sub_cancel_left]
  exact getElem?_zipWith_of_some _ _ _ _ _ _ hg hl

/-! ## Structural lemmas about the `rsi_strategy.py` loop -/

theorem kellyTransition_portfolio_values (cfg : Config) (s : KState)
    (b : ℕ × ℚ × Option ℚ) :
    (kellyTransition cfg s b).portfolio_values = s.portfolio_values := by
  rcases b with ⟨d, p, o⟩
  cases o with
  | none => rfl
  | some r =>
    simp only [kellyTransition]
    split
    · rfl
    · split <;> rfl

theorem kellyTransition_dates (cfg : Config) (s : KState)
    (b : ℕ × ℚ × Option ℚ) :
    (kellyTransition cfg s b).dates = s.dates := by
  rcases b with ⟨d, p, o⟩
  cases o with
  | none => rfl
  | some r =>
    simp only [kellyTransition]
    split
    · rfl
    · split <;> rfl

theorem kellyStep_portfolio_values (cfg : Config) (s : KState)
    (b : ℕ × ℚ × Option ℚ) :
    (kellyStep cfg s b).portfolio_values =
      s.portfolio_values ++ [markValue (kellyTransition cfg s b) b.2.1] := by
  simp only [kellyStep]
  rw [kellyTransition_portfolio_values]

theorem kellyStep_dates (cfg : Config) (s : KState) (b : ℕ × ℚ × Option ℚ) :
    (kellyStep cfg s b).dates = s.dates ++ [b.1] := by
  simp only [kellyStep]
  rw [kellyTransition_dates]

theorem markValue_kellyStep (cfg : Config) (s : KState) (b : ℕ × ℚ × Option ℚ)
    (p : ℚ) :
    markValue (kellyStep cfg s b) p = markValue (kellyTransition cfg s b) p :=
  rfl

theorem runBars_portfolio_values (cfg : Config) :
    ∀ (bars : List (ℕ × ℚ × Option ℚ)) (s : KState),
      (runBars cfg s bars).portfolio_values =
        s.portfolio_values ++ equityList cfg s bars := by
  intro bars
  induction bars with
  | nil => intro s; simp [runBars, equityList]
  | cons b bs ih =>
    intro s
    simp only [runBars, equityList, ih (kellyStep cfg s b),
      kellyStep_portfolio_values]
    simp

theorem runBars_dates (cfg : Config) :
    ∀ (bars : List (ℕ × ℚ × Option ℚ)) (s : KState),
      (runBars cfg s bars).dates = s.dates ++ bars.map Prod.fst := by
  intro bars
  induction bars with
  | nil => intro s; simp [runBars]
  | cons b bs ih =>
    intro s
    simp only [runBars, List.map_cons, ih (kellyStep cfg s b), kellyStep_dates]
    simp

theorem equityList_length (cfg : Config) :
    ∀ (bars : List (ℕ × ℚ × Option ℚ)) (s : KState),
      (equityList cfg s bars).length = bars.length := by
  intro bars
  induction bars with
  | nil => intro s; rfl
  | cons b bs ih => intro s; simp [equityList, ih]

theorem kellyTransition_at_threshold (cfg : Config) (s : KState) (d : ℕ)
    (p : ℚ) :
    kellyTransition cfg s (d, p, some cfg.rsi_overbought) = s := by
  have h1 : ¬(s.position = false ∧ cfg.rsi_overbought < cfg.rsi_overbought) :=
    fun h => lt_irrefl _ h.2
  have h2 : ¬(s.position = true ∧ cfg.rsi_overbought < cfg.rsi_overbought) :=
    fun h => lt_irrefl _ h.2
  simp only [kellyTransition, if_neg h1, if_neg h2]

theorem kellyTransition_cases (cfg : Config) (s : KState)
    (b : ℕ × ℚ × Option ℚ) :
    kellyTransition cfg s b = s ∨
    ((kellyTransition cfg s b).position = true ∧ s.position = false ∧
      ∃ t, (kellyTransition cfg s b).trades = s.trades ++ [t] ∧
        t.isBuy = true) ∨
    ((kellyTransition cfg s b).position = false ∧ s.position = true ∧
      ∃ t, (kellyTransition cfg s b).trades = s.trades ++ [t] ∧
        t.isBuy = false) := by
  rcases b with ⟨d, p, o⟩
  cases o with
  | none => exact Or.inl rfl
  | some r =>
    by_cases h1 : s.position = false ∧ cfg.rsi_overbought < r
    · refine Or.inr (Or.inl ?_)
      simp only [kellyTransition, if_pos h1]
      exact ⟨trivial, h1.1, _, rfl, rfl⟩
    · by_cases h2 : s.position = true ∧ r < cfg.rsi_overbought
      · refine Or.inr (Or.inr ?_)
        simp only [kellyTransition, if_neg h1, if_pos h2]
        exact ⟨trivial, h2.1, _, rfl, rfl⟩
      · exact Or.inl (by simp only [kellyTransition, if_neg h1, if_neg h2])

theorem kellyStep_preserves_ledgerOK (cfg : Config) (s : KState)
    (b : ℕ × ℚ × Option ℚ) (h : ledgerOK s) : ledgerOK (kellyStep cfg s b) := by
  have hpos : (kellyStep cfg s b).position = (kellyTransition cfg s b).position :=
    rfl
  have htr : (kellyStep cfg s b).trades = (kellyTransition cfg s b).trades := rfl
  rcases kellyTransition_cases cfg s b with heq | ⟨hp, hf, t, htl, hbuy⟩ |
      ⟨hp, hf, t, htl, hbuy⟩
  · constructor
    · rw [hpos, htr, heq]; exact h.1
    · rw [hpos, htr, heq]; exact h.2
  · have hlen : s.trades.length % 2 = 0 := by
      have := h.1
      rw [hf] at this
      simpa using this
    constructor
    · rw [hpos, htr, hp, htl]
      have hl : (s.trades ++ [t]).length = s.trades.length + 1 := by simp
      rw [hl, if_pos rfl]
      omega
    · intro _
      rw [htr, htl]
      simp [lastIsBuyB, List.getLast?_concat, hbuy]
  · have hlen : s.trades.length % 2 = 1 := by
      have := h.1
      rw [hf] at this
      simpa using this
    constructor
    · rw [hpos, htr, hp, htl]
      have hl : (s.trades ++ [t]).length = s.trades.length + 1 := by simp
      rw [hl, if_neg (by decide)]
      omega
    · intro hcon
      rw [hpos, hp] at hcon
      exact absurd hcon (by simp)

theorem runBars_preserves_ledgerOK (cfg : Config) :
    ∀ (bars : List (ℕ × ℚ × Option ℚ)) (s : KState), ledgerOK s →
      ledgerOK (runBars cfg s bars) := by
  intro bars
  induction bars with
  | nil => intro s h; exact h
  | cons b bs ih =>
    intro s h
    exact ih (kellyStep cfg s b) (kellyStep_preserves_ledgerOK cfg s b h)

theorem runBars_last_portfolio_value (cfg : Config) :
    ∀ (bars : List (ℕ × ℚ × Option ℚ)) (s : KState) (b : ℕ × ℚ × Option ℚ),
      bars.getLast? = some b →
      (runBars cfg s bars).portfolio_values.getLast? =
        some (markValue (runBars cfg s bars) b.2.1) := by
  intro bars
  induction bars with
  | nil => intro s b hb; simp at hb
  | cons b0 bs ih =>
    intro s b hb
    cases bs with
    | nil =>
      simp at hb
      subst hb
      simp only [runBars]
      rw [kellyStep_portfolio_values]
      simp only [List.getLast?_concat]
      rfl
    | cons b1 bs1 =>
      rw [List.getLast?_cons_cons] at hb
      exact ih (kellyStep cfg s b0) b hb

/-! ## Solvency of the `rsi_strategy.py` loop -/

theorem kellyTransition_entry_capital (cfg : Config) (s : KState) (d : ℕ)
    (p r : ℚ) (h1 : s.position = false) (h2 : cfg.rsi_overbought < r) :
    (kellyTransition cfg s (d, p, some r)).capital =
      s.capital - s.capital * cfg.kelly_fraction := by
  simp [kellyTransition, h1, h2]

theorem kellyTransition_entry_shares (cfg : Config) (s : KState) (d : ℕ)
    (p r : ℚ) (h1 : s.position = false) (h2 : cfg.rsi_overbought < r) :
    (kellyTransition cfg s (d, p, some r)).current_shares =
      s.capital * cfg.kelly_fraction /
        (p * (1 + cfg.trading_fee_pct + cfg.slippage_pct)) := by
  simp [kellyTransition, h1, h2]

theorem kellyTransition_exit_capital (cfg : Config) (s : KState) (d : ℕ)
    (p r : ℚ) (h1 : s.position = true) (h2 : r < cfg.rsi_overbought) :
    (kellyTransition cfg s (d, p, some r)).capital =
      s.capital + s.current_shares *
        (p * (1 - cfg.trading_fee_pct - cfg.slippage_pct)) := by
  simp [kellyTransition, h1, h2]

theorem kellyTransition_exit_shares (cfg : Config) (s : KState) (d : ℕ)
    (p r : ℚ) (h1 : s.position = true) (h2 : r < cfg.rsi_overbought) :
    (kellyTransition cfg s (d, p, some r)).current_shares = 0 := by
  simp [kellyTransition, h1, h2]

theorem kellyTransition_noop (cfg : Config) (s : KState) (d : ℕ) (p r : ℚ)
    (h1 : ¬(s.position = false ∧ cfg.rsi_overbought < r))
    (h2 : ¬(s.position = true ∧ r < cfg.rsi_overbought)) :
    kellyTransition cfg s (d, p, some r) = s := by
  simp only [kellyTransition, if_neg h1, if_neg h2]

theorem kellyStep_capital_nonneg (cfg : Config)
    (hf0 : 0 ≤ cfg.kelly_fraction) (hf1 : cfg.kelly_fraction ≤ 1)
    (hfee : 0 ≤ cfg.trading_fee_pct) (hslip : 0 ≤ cfg.slippage_pct)
    (hfs : cfg.trading_fee_pct + cfg.slippage_pct ≤ 1)
    (s : KState) (b : ℕ × ℚ × Option ℚ) (hp : 0 ≤ b.2.1)
    (hc : 0 ≤ s.capital) (hs : 0 ≤ s.current_shares) :
    0 ≤ (kellyStep cfg s b).capital ∧
      0 ≤ (kellyStep cfg s b).current_shares := by
  have hcs : 0 ≤ (kellyTransition cfg s b).capital ∧
      0 ≤ (kellyTransition cfg s b).current_shares := by
    rcases b with ⟨d, p, o⟩
    simp only at hp
    cases o with
    | none => exact ⟨hc, hs⟩
    | some r =>
      by_cases h1 : s.position = false ∧ cfg.rsi_overbought < r
      · rw [kellyTransition_entry_capital cfg s d p r h1.1 h1.2,
          kellyTransition_entry_shares cfg s d p r h1.1 h1.2]
        refine ⟨?_, ?_⟩
        · nlinarith [mul_nonneg hc (sub_nonneg.mpr hf1)]
        · exact div_nonneg (mul_nonneg hc hf0)
            (mul_nonneg hp (by linarith))
      · by_cases h2 : s.position = true ∧ r < cfg.rsi_overbought
        · rw [kellyTransition_exit_capital cfg s d p r h2.1 h2.2,
            kellyTransition_exit_shares cfg s d p r h2.1 h2.2]
          exact ⟨add_nonneg hc (mul_nonneg hs (mul_nonneg hp (by linarith))),
            le_refl 0⟩
        · rw [kellyTransition_noop cfg s d p r h1 h2]
          exact ⟨hc, hs⟩
  exact hcs

theorem runBars_capital_nonneg (cfg : Config)
    (hf0 : 0 ≤ cfg.kelly_fraction) (hf1 : cfg.kelly_fraction ≤ 1)
    (hfee : 0 ≤ cfg.trading_fee_pct) (hslip : 0 ≤ cfg.slippage_pct)
    (hfs : cfg.trading_fee_pct + cfg.slippage_pct ≤ 1) :
    ∀ (bars : List (ℕ × ℚ × Option ℚ)) (s : KState),
      (∀ x ∈ bars, 0 ≤ x.2.1) → 0 ≤ s.capital → 0 ≤ s.current_shares →
      0 ≤ (runBars cfg s bars).capital ∧
        0 ≤ (runBars cfg s bars).current_shares := by
  intro bars
  induction bars with
  | nil => intro s _ hc hs; exact ⟨hc, hs⟩
  | cons b bs ih =>
    intro s hb hc hs
    have hstep := kellyStep_capital_nonneg cfg hf0 hf1 hfee hslip hfs s b
      (hb b (List.mem_cons_self b bs)) hc hs
    exact ih (kellyStep cfg s b)
      (fun x hx => hb x (List.mem_cons_of_mem _ hx)) hstep.1 hstep.2

/-! ## Structural lemmas about the `plot_simple_rsi.py` loop -/

theorem simpleTransition_portfolio_values (cfg : SimpleConfig) (s : PState)
    (b : ℕ × ℚ × Option ℚ) :
    (simpleTransition cfg s b).portfolio_values = s.portfolio_values := by
  rcases b with ⟨d, p, o⟩
  cases o with
  | none => rfl
  | some r =>
    simp only [simpleTransition]
    split
    · rfl
    · split <;> rfl

theorem simpleStep_portfolio_values (cfg : SimpleConfig) (s : PState)
    (b : ℕ × ℚ × Option ℚ) :
    (simpleStep cfg s b).portfolio_values =
      s.portfolio_values ++ [simpleMark (simpleTransition cfg s b) b.2.1] := by
  simp only [simpleStep]
  rw [simpleTransition_portfolio_values]

theorem simpleTransition_entry_capital (cfg : SimpleConfig) (s : PState)
    (d : ℕ) (p r : ℚ) (h1 : s.position = false) (h2 : (70 : ℚ) < r) :
    (simpleTransition cfg s (d, p, some r)).capital =
      s.capital - (if s.portfolio_values.length ≤ 1 then
        cfg.initial_trade_size else s.capital * cfg.position_size_pct) := by
  simp [simpleTransition, h1, h2]

theorem simpleTransition_entry_shares (cfg : SimpleConfig) (s : PState)
    (d : ℕ) (p r : ℚ) (h1 : s.position = false) (h2 : (70 : ℚ) < r) :
    (simpleTransition cfg s (d, p, some r)).current_shares =
      (if s.portfolio_values.length ≤ 1 then
        cfg.initial_trade_size else s.capital * cfg.position_size_pct) / p := by
  simp [simpleTransition, h1, h2]

theorem simpleTransition_exit_capital (cfg : SimpleConfig) (s : PState)
    (d : ℕ) (p r : ℚ) (h1 : s.position = true) (h2 : r < (70 : ℚ)) :
    (simpleTransition cfg s (d, p, some r)).capital =
      s.capital + s.current_shares * p := by
  simp [simpleTransition, h1, h2]

theorem simpleTransition_exit_shares (cfg : SimpleConfig) (s : PState)
    (d : ℕ) (p r : ℚ) (h1 : s.position = true) (h2 : r < (70 : ℚ)) :
    (simpleTransition cfg s (d, p, some r)).current_shares = 0 := by
  simp [simpleTransition, h1, h2]

theorem simpleTransition_noop (cfg : SimpleConfig) (s : PState) (d : ℕ)
    (p r : ℚ) (h1 : ¬(s.position = false ∧ (70 : ℚ) < r))
    (h2 : ¬(s.position = true ∧ r < (70 : ℚ))) :
    simpleTransition cfg s (d, p, some r) = s := by
  simp only [simpleTransition, if_neg h1, if_neg h2]

theorem simpleStep_preserves_inv (cfg : SimpleConfig)
    (hpct0 : 0 ≤ cfg.position_size_pct) (hpct1 : cfg.position_size_pct ≤ 1)
    (hits0 : 0 ≤ cfg.initial_trade_size)
    (hits1 : cfg.initial_trade_size ≤ cfg.initial_capital)
    (s : PState) (b : ℕ × ℚ × Option ℚ) (hp : 0 ≤ b.2.1)
    (h : simpleInv cfg s) : simpleInv cfg (simpleStep cfg s b) := by
  obtain ⟨hc, hs, hlen1, hseed⟩ := h
  have hpv : (simpleStep cfg s b).portfolio_values.length =
      s.portfolio_values.length + 1 := by
    rw [simpleStep_portfolio_values]
    simp
  have hcs : 0 ≤ (simpleTransition cfg s b).capital ∧
      0 ≤ (simpleTransition cfg s b).current_shares := by
    rcases b with ⟨d, p, o⟩
    simp only at hp
    cases o with
    | none => exact ⟨hc, hs⟩
    | some r =>
      by_cases h1 : s.position = false ∧ (70 : ℚ) < r
      · rw [simpleTransition_entry_capital cfg s d p r h1.1 h1.2,
          simpleTransition_entry_shares cfg s d p r h1.1 h1.2]
        by_cases hl : s.portfolio_values.length ≤ 1
        · rw [if_pos hl, hseed hl]
          exact ⟨by linarith, div_nonneg hits0 hp⟩
        · rw [if_neg hl]
          exact ⟨by nlinarith [mul_nonneg hc (sub_nonneg.mpr hpct1)],
            div_nonneg (mul_nonneg hc hpct0) hp⟩
      · by_cases h2 : s.position = true ∧ r < (70 : ℚ)
        · rw [simpleTransition_exit_capital cfg s d p r h2.1 h2.2,
            simpleTransition_exit_shares cfg s d p r h2.1 h2.2]
          exact ⟨add_nonneg hc (mul_nonneg hs hp), le_refl 0⟩
        · rw [simpleTransition_noop cfg s d p r h1 h2]
          exact ⟨hc, hs⟩
  refine ⟨hcs.1, hcs.2, ?_, ?_⟩
  · rw [hpv]; omega
  · intro hle
    rw [hpv] at hle
    exact absurd hle (by omega)

theorem runSimpleBars_preserves_inv (cfg : SimpleConfig)
    (hpct0 : 0 ≤ cfg.position_size_pct) (hpct1 : cfg.position_size_pct ≤ 1)
    (hits0 : 0 ≤ cfg.initial_trade_size)
    (hits1 : cfg.initial_trade_size ≤ cfg.initial_capital) :
    ∀ (bars : List (ℕ × ℚ × Option ℚ)) (s : PState),
      (∀ x ∈ bars, 0 ≤ x.2.1) → simpleInv cfg s →
      simpleInv cfg (runSimpleBars cfg s bars) := by
  intro bars
  induction bars with
  | nil => intro s _ h; exact h
  | cons b bs ih =>
    intro s hb h
    exact ih (simpleStep cfg s b)
      (fun x hx => hb x (List.mem_cons_of_mem _ hx))
      (simpleStep_preserves_inv cfg hpct0 hpct1 hits0 hits1 s b
        (hb b (List.mem_cons_self b bs)) h)

/-! ## Claim theorems -/

/-- C9: for every window `W ≥ 1` and close series of length `N > W`, the
oscillator output has length `N`, exactly the first `W` entries are undefined,
and the remaining `N − W` entries are each defined with a value in `[0, 100]`. -/
theorem claim_oscillator_shape (W : ℕ) (closes : List ℚ)
    (_hW : 1 ≤ W) (hN : W < closes.length) :
    (rsiSeries W closes).length = closes.length ∧
    (rsiSeries W closes).take W = List.replicate W none ∧
    ((rsiSeries W closes).drop W).length = closes.length - W ∧
    ∀ o ∈ (rsiSeries W closes).drop W, ∃ v, o = some v ∧ 0 ≤ v ∧ v ≤ 100 := by
  refine ⟨length_rsiSeries W closes hN, rsiSeries_take W closes, ?_,
    rsiSeries_drop_bounded W closes⟩
  rw [List.length_drop, length_rsiSeries W closes hN]

/-- Witness for C9 at `W = 1`, closes `[1, 2, 3]`. -/
theorem claim_oscillator_shape_witness :
    (rsiSeries 1 [(1 : ℚ), 2, 3]).length = ([(1 : ℚ), 2, 3]).length ∧
    (rsiSeries 1 [(1 : ℚ), 2, 3]).take 1 = List.replicate 1 none ∧
    ((rsiSeries 1 [(1 : ℚ), 2, 3]).drop 1).length = ([(1 : ℚ), 2, 3]).length - 1 ∧
    (∀ o ∈ (rsiSeries 1 [(1 : ℚ), 2, 3]).drop 1,
      ∃ v, o = some v ∧ 0 ≤ v ∧ v ≤ 100) :=
  claim_oscillator_shape 1 [1, 2, 3] (by decide) (by decide)

/-- C5: wherever the trailing average loss is zero, the oscillator value is
exactly 100; in particular every defined entry for a monotonically increasing
(non-decreasing) close series is 100. -/
theorem claim_zero_avg_loss_rsi :
    (∀ (W : ℕ) (closes : List ℚ) (j : ℕ) (g : ℚ),
      (wilderAvgs W ((deltas closes).map gainOf))[j]? = some g →
      (wilderAvgs W ((deltas closes).map lossOf))[j]? = some 0 →
      (rsiSeries W closes)[W + j]? = some (some 100)) ∧
    (∀ (W : ℕ) (closes : List ℚ), List.Chain' (· ≤ ·) closes →
      ∀ o ∈ (rsiSeries W closes).drop W, o = some 100) := by
  constructor
  · intro W closes j g hg hl
    have h := rsiSeries_getElem? W closes j g 0 hg hl
    simpa [rsiVal] using h
  · intro W closes hch
    exact rsiSeries_drop_of_nonneg_deltas W closes
      (deltas_nonneg_of_chain closes hch)

/-- Witness for C5: the first part at `W = 1`, closes `[1, 2]`, the second at
`W = 2`, closes `[1, 1, 2, 3]`. -/
theorem claim_zero_avg_loss_rsi_witness :
    (rsiSeries 1 [(1 : ℚ), 2])[1 + 0]? = some (some 100) ∧
    ((rsiSeries 2 [(1 : ℚ), 1, 2, 3]).drop 2).getD 0 none = some 100 := by
  constructor
  · exact claim_zero_avg_loss_rsi.1 1 [1, 2] 0 1
      (by norm_num [wilderAvgs, deltas, gainOf, List.scanl])
      (by norm_num [wilderAvgs, deltas, lossOf, List.scanl])
  · refine claim_zero_avg_loss_rsi.2 2 [1, 1, 2, 3] ?_ _ ?_
    · exact List.Chain.cons (by norm_num) (List.Chain.cons (by norm_num)
        (List.Chain.cons (by norm_num) List.Chain.nil))
    · have h : (rsiSeries 2 [(1 : ℚ), 1, 2, 3]).drop 2 = [some 100, some 100] := by
        norm_num [rsiSeries, wilderAvgs, deltas, gainOf, lossOf, rsiVal,
          List.scanl]
      rw [h]
      simp

/-- C4 counterexample: on the flat series of six equal closes with the
script's window 5, the defined oscillator entry is exactly 100 (the zero
average-loss degenerate rule fires), not 50 as claimed. -/
theorem claim_flat_rsi_cex :
    (rsiSeries 5 (List.replicate 6 (1 : ℚ))).getD 5 none = some 100 ∧
    ¬((rsiSeries 5 (List.replicate 6 (1 : ℚ))).getD 5 none = some 50) := by
  norm_num [rsiSeries, wilderAvgs, deltas, gainOf, lossOf, rsiVal,
    List.replicate, List.scanl]

/-- C4 (amended): for a flat close series every oscillator entry after the
initial window is exactly 100, since the trailing average loss is zero and the
degenerate rule defines the value as 100. -/
theorem claim_flat_rsi_amended (W n : ℕ) (c : ℚ) :
    ∀ o ∈ (rsiSeries W (List.replicate n c)).drop W, o = some 100 :=
  rsiSeries_drop_of_nonneg_deltas W _
    (fun d hd => le_of_eq (deltas_replicate n c d hd).symm)

/-- Witness for the amended C4 at `W = 5`, seven equal closes. -/
theorem claim_flat_rsi_amended_witness :
    ((rsiSeries 5 (List.replicate 7 (2 : ℚ))).drop 5).getD 0 none = some 100 := by
  refine claim_flat_rsi_amended 5 7 2 _ ?_
  have h : (rsiSeries 5 (List.replicate 7 (2 : ℚ))).drop 5 =
      [some 100, some 100] := by
    norm_num [rsiSeries, wilderAvgs, deltas, gainOf, lossOf, rsiVal,
      List.replicate, List.scanl]
  rw [h]
  simp

/-- C2 counterexample: a ledger with one winning SELL and no losses has
`profit_factor = +inf` as claimed, but `win_loss_ratio` is NOT `+inf` (the
mean of the empty loss set is NaN and NaN propagates through the division). -/
theorem claim_no_loss_stats_cex :
    sell_trades [⟨FSide.sell, 5, 5⟩] ≠ [] ∧
    losses [⟨FSide.sell, 5, 5⟩] = [] ∧
    profit_factor [⟨FSide.sell, 5, 5⟩] = FVal.pinf ∧
    win_loss_ratio [⟨FSide.sell, 5, 5⟩] ≠ FVal.pinf := by
  refine ⟨?_, ?_, ?_, ?_⟩
  · norm_num [sell_trades, List.filter]
  · norm_num [losses, sell_trades, List.filter]
  · norm_num [profit_factor, losses, sell_trades, wins, fabs, fdiv,
      List.filter]
  · have h : win_loss_ratio [⟨FSide.sell, 5, 5⟩] = FVal.nan := by
      norm_num [win_loss_ratio, avg_win, avg_loss, wins, losses, sell_trades,
        fmean, fdiv, fabs, List.filter]
    rw [h]
    decide

/-- C2 (amended): for every ledger with at least one SELL, all of them
winning, `profit_factor` is `+infinity`, while `win_loss_ratio` — and hence
the Kelly value — evaluates to the `NaN` sentinel rather than `+infinity`;
all three computations are total (they return sentinels, nothing raises). -/
theorem claim_no_loss_stats (ts : List FTrade)
    (h1 : sell_trades ts ≠ [])
    (h2 : ∀ t ∈ sell_trades ts, 0 < t.pnl) :
    win_loss_ratio ts = FVal.nan ∧ profit_factor ts = FVal.pinf ∧
      kelly ts = FVal.nan := by
  have hlos : losses ts = [] := by
    refine List.filter_eq_nil_iff.mpr ?_
    intro t ht
    simp only [decide_eq_true_eq, not_le]
    exact h2 t ht
  have havgl : avg_loss ts = FVal.nan := by
    unfold avg_loss
    rw [hlos]
    rfl
  have hwne : (wins ts).map FTrade.ret ≠ [] := by
    obtain ⟨t, ht⟩ := List.exists_mem_of_ne_nil _ h1
    have htw : t ∈ wins ts := by
      refine List.mem_filter.mpr ⟨ht, ?_⟩
      simp only [decide_eq_true_eq]
      exact h2 t ht
    exact fun hcon =>
      absurd (List.map_eq_nil_iff.mp hcon) (List.ne_nil_of_mem htw)
  have havgw : ∃ q, avg_win ts = FVal.num q := by
    unfold avg_win
    cases hw : (wins ts).map FTrade.ret with
    | nil => exact absurd hw hwne
    | cons a l =>
      refine ⟨(a :: l).sum / ((a :: l).length : ℚ) / 100, ?_⟩
      norm_num [fmean, fdiv]
  obtain ⟨q, hq⟩ := havgw
  have hwlr : win_loss_ratio ts = FVal.nan := by
    unfold win_loss_ratio
    rw [hq, havgl]
    rfl
  refine ⟨hwlr, ?_, ?_⟩
  · unfold profit_factor
    rw [hlos]
    simp
  · unfold kelly
    rw [hwlr]
    rfl

/-- Witness for the amended C2 on a one-SELL all-wins ledger. -/
theorem claim_no_loss_stats_witness :
    win_loss_ratio [⟨FSide.sell, 7, 3⟩] = FVal.nan ∧
    profit_factor [⟨FSide.sell, 7, 3⟩] = FVal.pinf ∧
    kelly [⟨FSide.sell, 7, 3⟩] = FVal.nan :=
  claim_no_loss_stats [⟨FSide.sell, 7, 3⟩]
    (by norm_num [sell_trades, List.filter])
    (by
      intro t ht
      norm_num [sell_trades, List.filter] at ht
      rw [ht]
      norm_num)

/-- C1: at the concrete two-bar run (entry at price 100 / RSI 80, exit at
price 110 / RSI 60, the script's constants), the SELL record's `trade_pnl`
and `return` are NOT exit value minus the trade size recorded at entry
(32440): they use the trade size recomputed at the exit bar, which also makes
the SELL record's `trade_size` differ from its matching BUY's. The same
record's `strategy_pnl` does equal exit value minus the entry trade size,
contradicting `trade_pnl` within one record. -/
theorem claim_trade_pnl_exit_bar_size :
    pnlProbeRun.trades.length = 2 ∧
    pnlProbeBuy.tradeSizeOf = 32440 ∧
    pnlProbeSell.tradePnlOf ≠
      pnlProbeSell.sharesOf * pnlProbeSell.effectivePriceOf -
        pnlProbeBuy.tradeSizeOf ∧
    pnlProbeSell.strategyPnlOf =
      pnlProbeSell.sharesOf * pnlProbeSell.effectivePriceOf -
        pnlProbeBuy.tradeSizeOf ∧
    pnlProbeSell.returnPctOf ≠
      (pnlProbeSell.sharesOf * pnlProbeSell.effectivePriceOf -
        pnlProbeBuy.tradeSizeOf) / pnlProbeBuy.tradeSizeOf * 100 ∧
    pnlProbeSell.tradeSizeOf ≠ pnlProbeBuy.tradeSizeOf := by
  norm_num [pnlProbeBuy, pnlProbeSell, pnlProbeRun, runBars, kellyStep,
    kellyTransition, initState, defaultConfig, markValue, KTrade.tradeSizeOf,
    KTrade.tradePnlOf, KTrade.strategyPnlOf, KTrade.returnPctOf,
    KTrade.sharesOf, KTrade.effectivePriceOf]

/-- C3 counterexample: on six equal closes with window 5 exactly one bar is
processed (index 5), yet the equity curve holds two entries: the pre-loop seed
at the first bar's date 0 plus one per-bar entry. -/
theorem claim_equity_curve_cex :
    (runStrategy (List.replicate 6 1)).portfolio_values.length = 2 ∧
    (runStrategy (List.replicate 6 1)).dates = [0, 5] ∧
    ¬((runStrategy (List.replicate 6 1)).portfolio_values.length = 6 - 5) := by
  norm_num [runStrategy, strategyBars, rsiSeries, wilderAvgs, deltas, gainOf,
    lossOf, rsiVal, List.replicate, List.scanl, List.range, List.range.loop,
    runBars, kellyStep, kellyTransition, initState, defaultConfig, markValue]

/-- C3 (amended): the equity curve is the pre-loop seed entry — the initial
capital at the first bar's date — followed by exactly one entry per processed
bar, where `equityList` holds, for each processed bar, the mark-to-market
value (post-transition cash plus open position) at that bar's close. -/
theorem claim_equity_curve_amended (cfg : Config) (d0 : ℕ)
    (bars : List (ℕ × ℚ × Option ℚ)) :
    (runBars cfg (initState cfg d0) bars).portfolio_values =
      cfg.initial_capital :: equityList cfg (initState cfg d0) bars ∧
    (equityList cfg (initState cfg d0) bars).length = bars.length ∧
    (runBars cfg (initState cfg d0) bars).dates = d0 :: bars.map Prod.fst := by
  refine ⟨?_, equityList_length cfg bars _, ?_⟩
  · rw [runBars_portfolio_values]
    rfl
  · rw [runBars_dates]
    rfl

/-- C6: a bar whose oscillator value equals the overbought threshold exactly
triggers neither the entry nor the exit transition, in either state: position,
cash, shares and ledger are all unchanged. -/
theorem claim_threshold_no_transition (cfg : Config) (s : KState) (d : ℕ)
    (p : ℚ) :
    (kellyStep cfg s (d, p, some cfg.rsi_overbought)).position = s.position ∧
    (kellyStep cfg s (d, p, some cfg.rsi_overbought)).capital = s.capital ∧
    (kellyStep cfg s (d, p, some cfg.rsi_overbought)).current_shares =
      s.current_shares ∧
    (kellyStep cfg s (d, p, some cfg.rsi_overbought)).trades = s.trades := by
  refine ⟨?_, ?_, ?_, ?_⟩ <;>
    simp only [kellyStep, kellyTransition_at_threshold cfg s d p]

/-- C7: every loop iteration appends exactly one equity value, equal to cash
plus shares times the bar's close when a position is open and to cash exactly
when flat — in both script variants. -/
theorem claim_equity_conservation :
    (∀ (cfg : Config) (s : KState) (b : ℕ × ℚ × Option ℚ),
      (kellyStep cfg s b).portfolio_values = s.portfolio_values ++
        [(kellyStep cfg s b).capital +
          (if (kellyStep cfg s b).position then
            (kellyStep cfg s b).current_shares * b.2.1 else 0)]) ∧
    (∀ (cfg : SimpleConfig) (s : PState) (b : ℕ × ℚ × Option ℚ),
      (simpleStep cfg s b).portfolio_values = s.portfolio_values ++
        [if (simpleStep cfg s b).position then
          (simpleStep cfg s b).capital +
            (simpleStep cfg s b).current_shares * b.2.1
         else (simpleStep cfg s b).capital]) := by
  constructor
  · intro cfg s b
    rw [kellyStep_portfolio_values]
    rfl
  · intro cfg s b
    rw [simpleStep_portfolio_values]
    rfl

/-- C8: if the run ends while LONG, the ledger has odd length and its most
recent record is the open position's unmatched `BUY` (no SELL is synthesized),
while the final equity-curve entry still equals cash plus shares times the
last bar's close. -/
theorem claim_open_position_at_end (cfg : Config) (d0 : ℕ)
    (bars : List (ℕ × ℚ × Option ℚ)) (b : ℕ × ℚ × Option ℚ)
    (hb : bars.getLast? = some b)
    (hpos : (runBars cfg (initState cfg d0) bars).position = true) :
    (runBars cfg (initState cfg d0) bars).trades.length % 2 = 1 ∧
    lastIsBuyB (runBars cfg (initState cfg d0) bars).trades = true ∧
    (runBars cfg (initState cfg d0) bars).portfolio_values.getLast? =
      some ((runBars cfg (initState cfg d0) bars).capital +
        (runBars cfg (initState cfg d0) bars).current_shares * b.2.1) := by
  have hok : ledgerOK (runBars cfg (initState cfg d0) bars) := by
    refine runBars_preserves_ledgerOK cfg bars (initState cfg d0) ⟨?_, ?_⟩
    · simp [initState]
    · intro hcon
      simp [initState] at hcon
  refine ⟨?_, hok.2 hpos, ?_⟩
  · have h1 := hok.1
    rw [hpos] at h1
    simpa using h1
  · rw [runBars_last_portfolio_value cfg bars (initState cfg d0) b hb]
    simp [markValue, hpos]

/-- Witness for C8: a single bar with RSI 80 enters and the series ends. -/
theorem claim_open_position_at_end_witness :
    (runBars defaultConfig (initState defaultConfig 0)
      [(5, 100, some 80)]).trades.length % 2 = 1 ∧
    lastIsBuyB (runBars defaultConfig (initState defaultConfig 0)
      [(5, 100, some 80)]).trades = true ∧
    (runBars defaultConfig (initState defaultConfig 0)
      [(5, 100, some 80)]).portfolio_values.getLast? =
      some ((runBars defaultConfig (initState defaultConfig 0)
          [(5, 100, some 80)]).capital +
        (runBars defaultConfig (initState defaultConfig 0)
          [(5, 100, some 80)]).current_shares * 100) :=
  claim_open_position_at_end defaultConfig 0 [(5, 100, some 80)]
    (5, 100, some 80) rfl
    (by norm_num [runBars, kellyStep, kellyTransition, initState,
      defaultConfig, markValue])

/-- C10: cash stays non-negative after every bar — for the Kelly variant with
sizing fraction in `[0, 1]`, non-negative fee and slippage rates summing to at
most 1 and non-negative initial capital; and for the simple variant with
portfolio fraction in `[0, 1]` and a non-negative fixed initial trade size not
exceeding the initial capital — given non-negative close prices. -/
theorem claim_cash_nonneg :
    (∀ (cfg : Config), 0 ≤ cfg.kelly_fraction → cfg.kelly_fraction ≤ 1 →
      0 ≤ cfg.trading_fee_pct → 0 ≤ cfg.slippage_pct →
      cfg.trading_fee_pct + cfg.slippage_pct ≤ 1 → 0 ≤ cfg.initial_capital →
      ∀ (d0 : ℕ) (bars : List (ℕ × ℚ × Option ℚ)),
        (∀ x ∈ bars, 0 ≤ x.2.1) →
      ∀ n, 0 ≤ (runBars cfg (initState cfg d0) (bars.take n)).capital) ∧
    (∀ (cfg : SimpleConfig), 0 ≤ cfg.position_size_pct →
      cfg.position_size_pct ≤ 1 → 0 ≤ cfg.initial_trade_size →
      cfg.initial_trade_size ≤ cfg.initial_capital →
      ∀ (d0 : ℕ) (bars : List (ℕ × ℚ × Option ℚ)),
        (∀ x ∈ bars, 0 ≤ x.2.1) →
      ∀ n, 0 ≤ (runSimpleBars cfg (initSimple cfg d0) (bars.take n)).capital) := by
  constructor
  · intro cfg h1 h2 h3 h4 h5 h6 d0 bars hp n
    exact (runBars_capital_nonneg cfg h1 h2 h3 h4 h5 (bars.take n)
      (initState cfg d0)
      (fun x hx => hp x (bars.take_subset n hx)) h6 (le_refl 0)).1
  · intro cfg h1 h2 h3 h4 d0 bars hp n
    have h0 : simpleInv cfg (initSimple cfg d0) :=
      ⟨le_trans h3 h4, le_refl 0, by simp [initSimple], fun _ => rfl⟩
    exact (runSimpleBars_preserves_inv cfg h1 h2 h3 h4 (bars.take n)
      (initSimple cfg d0)
      (fun x hx => hp x (bars.take_subset n hx)) h0).1

/-- Witness for C10 with the scripts' parameter blocks on a one-bar input. -/
theorem claim_cash_nonneg_witness :
    0 ≤ (runBars defaultConfig (initState defaultConfig 0)
      ([((0 : ℕ), (100 : ℚ), some (80 : ℚ))].take 1)).capital ∧
    0 ≤ (runSimpleBars defaultSimpleConfig (initSimple defaultSimpleConfig 0)
      ([((0 : ℕ), (100 : ℚ), some (80 : ℚ))].take 1)).capital := by
  constructor
  · exact claim_cash_nonneg.1 defaultConfig (by norm_num [defaultConfig])
      (by norm_num [defaultConfig]) (by norm_num [defaultConfig])
      (by norm_num [defaultConfig]) (by norm_num [defaultConfig])
      (by norm_num [defaultConfig]) 0 _
      (by
        intro x hx
        rw [List.mem_singleton] at hx
        rw [hx]
        norm_num) 1
  · exact claim_cash_nonneg.2 defaultSimpleConfig
      (by norm_num [defaultSimpleConfig]) (by norm_num [defaultSimpleConfig])
      (by norm_num [defaultSimpleConfig]) (by norm_num [defaultSimpleConfig])
      0 _
      (by
        intro x hx
        rw [List.mem_singleton] at hx
        rw [hx]
        norm_num) 1

end RSIStrategy
